import Mathlib

/-!
Verification of the sql-infer repository's type-inference core against its
natural-language specification.

The Rust sources under `sql-infer-core` and `sql-infer-cli` are shallowly
embedded: Rust enums become inductive types, `&str`/`String` become `String`
(or `List Char` for the character-scanning rewriter), `HashMap<Column, _>`
becomes a function `Column → Option _`, and `u32`/`i32` become `Nat`/`Int`
with the explicit `% 2^32` conversion where the code casts.  External
collaborators (the sqlparser AST, the sqlx driver) are embedded only through
the interface the core consumes, as the spec prescribes.
-/

/-! ## Data model (sql-infer-core/src/inference.rs, parser.rs) -/

/-- Trivalent nullability, from `inference.rs`. -/
inductive Nullability where
  | True
  | False
  | Unknown
deriving DecidableEq, Repr

/-- `SqlType`, from `inference.rs`.  `u32` length/precision fields become
`Option Nat`; enum tags become a list of labels. -/
inductive SqlType where
  | Bool
  | Int2
  | Int4
  | Int8
  | SmallSerial
  | Serial
  | BigSerial
  | Decimal (precision : Option Nat) (precision_radix : Option Nat)
  | Timestamp (tz : Bool)
  | Date
  | Time (tz : Bool)
  | Interval
  | Char (length : Option Nat)
  | VarChar (length : Option Nat)
  | Bit (length : Option Nat)
  | VarBit (length : Option Nat)
  | Text
  | Json
  | Jsonb
  | Float4
  | Float8
  | Enum (name : String) (tags : List String)
  | Unknown
deriving DecidableEq, Repr

/-- `sqlparser::ast::BinaryOperator`, embedded with the variants the code
matches on plus a catch-all for every other operator. -/
inductive BinaryOperator where
  | Plus
  | Minus
  | Multiply
  | Divide
  | Modulo
  | StringConcat
  | Gt
  | Lt
  | GtEq
  | LtEq
  | Eq
  | NotEq
  | And
  | Or
  | Xor
  | Other (sql : String)
deriving DecidableEq, Repr

/-- `BinaryOpData`, from `parser.rs`. -/
inductive BinaryOpData where
  | Unknown (inner : BinaryOperator)
  | ConstantType (inner : BinaryOperator) (sql_type : SqlType)
  | Numeric (inner : BinaryOperator)
  | Concat
deriving DecidableEq, Repr

/-- `BinaryOpData::not_null` (parser.rs line 120): the body is literally
`Some(false)` for every classification. -/
def BinaryOpData.not_null (_ : BinaryOpData) : Option Bool :=
  some false

/-- `ValueType`, from `parser.rs`. -/
inductive ValueType where
  | Boolean
  | Int
  | Float
  | String
  | Null
deriving DecidableEq, Repr

/-- `sqlparser::ast::DataType`, an external AST type the code only clones and
compares; embedded as its rendered text. -/
structure DataType where
  render : String
deriving DecidableEq, Repr

/-- The column-provenance expression `Column`, from `parser.rs`.  `Arc<Column>`
is a shared immutable handle and is embedded as a plain subterm.  The Rust
`#[derive(PartialEq)]` is structural equality, which is Lean's `=` on this
inductive. -/
inductive Column where
  | DependsOn (table : String) (column : String)
  | Maybe (column : Column)
  | Either (left : Column) (right : Column)
  | Unknown (sql : String)
  | Cast (source : Column) (data_type : DataType)
  | BinaryOp (op : BinaryOpData) (left : Column) (right : Column)
  | Value (value : ValueType)
deriving DecidableEq, Repr

/-- `Column::depends_on` constructor helper from `parser.rs`. -/
def Column.depends_on (table column : String) : Column :=
  Column.DependsOn table column

/-- `Column::either` constructor helper from `parser.rs`. -/
def Column.either (left right : Column) : Column :=
  Column.Either left right

/-- `Column::maybe` constructor helper from `parser.rs`. -/
def Column.maybe (c : Column) : Column :=
  Column.Maybe c

/-- `InformationSchema`, from `inference.rs`: one catalog row per
`(table, column)`; `i32` columns become `Int`. -/
structure InformationSchema where
  is_nullable : Option Bool
  character_maximum_length : Option Int
  numeric_precision : Option Int
  numeric_precision_radix : Option Int
  numeric_scale : Option Int
  column_default : Option String
deriving DecidableEq, Repr

/-- `QueryItem`, from `inference.rs`. -/
structure QueryItem where
  name : String
  sql_type : SqlType
  nullable : Nullability
deriving DecidableEq, Repr

/-- `QueryTypes`, from `inference.rs`. -/
structure QueryTypes where
  input : List QueryItem
  output : List QueryItem
deriving DecidableEq, Repr

/-- The `schemas: &HashMap<Column, InformationSchema>` argument of a pass,
embedded as a lookup function (`HashMap::get`). -/
def Schemas : Type :=
  Column → Option InformationSchema

/-! ## ColumnNullability pass (sql-infer-core/src/inference/nullability.rs) -/

/-- `column_is_nullable` from `nullability.rs`, the fold computing an output
item's nullability over its provenance expression. -/
def column_is_nullable : Column → Schemas → Nullability
  | c@(.DependsOn _ _), schemas =>
    match schemas c with
    | none => .Unknown
    | some schema =>
      match schema.is_nullable with
      | some true => .True
      | some false => .False
      | none => .Unknown
  | .Maybe _, _ => .True
  | .Either left right, schemas =>
    match column_is_nullable left schemas with
    | .True => .True
    | .False => column_is_nullable right schemas
    | .Unknown => .Unknown
  | .Unknown _, _ => .Unknown
  | .Cast source _, schemas => column_is_nullable source schemas
  | .BinaryOp op left right, schemas =>
    if op.not_null = some true then .False
    else
      match column_is_nullable left schemas with
      | .True => .True
      | .False => column_is_nullable right schemas
      | .Unknown => .Unknown
  | .Value v, _ =>
    match v with
    | .Null => .True
    | _ => .False

/-- `ColumnNullability::apply` from `nullability.rs`: overwrites the item's
nullability with the fold's result. -/
def ColumnNullability.apply (schemas : Schemas) (source : Column)
    (item : QueryItem) : QueryItem :=
  { item with nullable := column_is_nullable source schemas }

/-! ## SqlType::from_str (sql-infer-core/src/inference.rs lines 249-279)

The Rust function returns `Result` but every arm is `Ok`, including the
catch-all, so it is embedded as a total function. -/

/-- `SqlType::from_str`: the driver type-name mapping table, verbatim from
the source, including the `BIT`/`VARBIT`/`JSONB` arms. -/
def SqlType.from_str (sql_type : String) : SqlType :=
  match sql_type with
  | "BOOL" => .Bool
  | "SMALLINT" | "INT2" => .Int2
  | "INT" | "INT4" => .Int4
  | "INT8" => .Int8
  | "SMALLSERIAL" => .SmallSerial
  | "SERIAL" => .Serial
  | "BIGSERIAL" => .BigSerial
  | "NUMERIC" => .Decimal none none
  | "TIMESTAMP" => .Timestamp false
  | "TIMESTAMPTZ" => .Timestamp true
  | "TIME" => .Time false
  | "TIMETZ" => .Time true
  | "DATE" => .Date
  | "CHAR" => .Char none
  | "VARCHAR" => .VarChar none
  | "BIT" => .Char none
  | "VARBIT" => .VarChar none
  | "TEXT" => .Text
  | "JSON" => .Json
  | "JSONB" => .Json
  | "DOUBLE PRECISION" | "FLOAT8" => .Float8
  | "REAL" | "FLOAT4" => .Float4
  | "INTERVAL" => .Interval
  | _ => .Unknown

/-! ## TextLength and DecimalPrecision passes
(sql-infer-core/src/inference/datatypes.rs) -/

/-- `includes_cast` from `datatypes.rs`. -/
def includes_cast : Column → Option Bool
  | .DependsOn _ _ => some false
  | .Maybe column => includes_cast column
  | .Either left right =>
    match includes_cast left, includes_cast right with
    | some l, some r => some (l || r)
    | _, _ => none
  | .Cast _ _ => some true
  | .BinaryOp _ _ _ => none
  | .Unknown _ => none
  | .Value _ => none

/-- Rust's `x as u32` on an `i32`, i.e. reduction modulo `2^32`. -/
def i32AsU32 (x : Int) : Nat :=
  (x % 4294967296).toNat

/-- `TextLength::apply` from `datatypes.rs`: Rust mutates `item` in place; the
embedding returns the updated item. -/
def TextLength.apply (schemas : Schemas) (column : Column)
    (item : QueryItem) : QueryItem :=
  match schemas column with
  | none => item
  | some schema =>
    if includes_cast column ≠ some true then item
    else
      match item.sql_type with
      | .Char _ =>
        match schema.character_maximum_length with
        | some l => { item with sql_type := .Char (some (i32AsU32 l)) }
        | none => item
      | .VarChar _ =>
        match schema.character_maximum_length with
        | some l => { item with sql_type := .VarChar (some (i32AsU32 l)) }
        | none => item
      | _ => item

/-- `DecimalPrecision::apply` from `datatypes.rs`. -/
def DecimalPrecision.apply (schemas : Schemas) (column : Column)
    (item : QueryItem) : QueryItem :=
  match schemas column with
  | none => item
  | some schema =>
    if includes_cast column ≠ some true then item
    else
      match item.sql_type with
      | .Decimal _ _ =>
        match schema.numeric_precision, schema.numeric_precision_radix with
        | some p, some r =>
          { item with sql_type := .Decimal (some (i32AsU32 p)) (some (i32AsU32 r)) }
        | _, _ => item
      | _ => item

/-- The spec's side condition in the frame claim: the provenance expression
contains a `Cast` node somewhere in the tree. -/
def containsCast : Column → Bool
  | .DependsOn _ _ => false
  | .Maybe column => containsCast column
  | .Either left right => containsCast left || containsCast right
  | .Unknown _ => false
  | .Cast _ _ => true
  | .BinaryOp _ left right => containsCast left || containsCast right
  | .Value _ => false

/-! ## Table provenance trees and join folding
(sql-infer-core/src/parser.rs) -/

/-- The double-quote character (written via its code point to keep quote
characters out of the source text). -/
def dquote : Char := Char.ofNat 34

/-- The single-quote character. -/
def squote : Char := Char.ofNat 39

/-- Rust `str::replace("\"\"", "\"")`: left-to-right non-overlapping
replacement of doubled double-quotes by a single one. -/
def replaceDoubledQuote : List Char → List Char
  | [] => []
  | c :: d :: rest =>
    if c = dquote ∧ d = dquote then dquote :: replaceDoubledQuote rest
    else c :: replaceDoubledQuote (d :: rest)
  | [c] => [c]

/-- `unescape` from `parser.rs`: strip one layer of surrounding double quotes
and undouble inner ones.  (On the 1-character name consisting of a lone double
quote the Rust slice `name[1..0]` panics; the embedding returns the empty
name, a case no claim touches.) -/
def unescape (name : String) : String :=
  if ¬(name.data.head? = some dquote ∧ name.data.getLast? = some dquote) then
    name
  else
    ⟨replaceDoubledQuote ((name.data.drop 1).take (name.data.length - 2))⟩

/-- The `Table` provenance tree from `parser.rs`; `Arc<Table>` becomes a plain
subterm, and the two `(bool, Arc<Table>)` pairs of `Join` become the four
fields in order. -/
inductive Table where
  | Db (name : String)
  | Alias (name : String) (source : Table)
  | Join (left_null : Bool) (left : Table) (right_null : Bool) (right : Table)
  | Unknown (sql : String)
deriving DecidableEq, Repr

/-- `Table::find_column` from `parser.rs`: resolve an unqualified identifier
against a table tree. -/
def Table.find_column : Table → String → Column
  | .Db name, ident => Column.depends_on name ident
  | .Alias _ source, ident => source.find_column ident
  | .Join left_null left right_null right, ident =>
    let l := left.find_column ident
    let r := right.find_column ident
    let l := if left_null then l.maybe else l
    let r := if right_null then r.maybe else r
    Column.either l r
  | .Unknown sql, _ => Column.Unknown sql

/-- `Table::find_table_column` from `parser.rs`: resolve a qualified
identifier, narrowing by alias or table name. -/
def Table.find_table_column : Table → String → String → Option Column
  | .Db name, table, ident =>
    if name = table then some (Column.depends_on table ident) else none
  | .Alias name source, table, ident =>
    if name = table then some (source.find_column ident) else none
  | .Join left_null left right_null right, table, ident =>
    let l := left.find_table_column table ident
    let r := right.find_table_column table ident
    let l := if left_null then l.map Column.maybe else l
    let r := if right_null then r.map Column.maybe else r
    match l, r with
    | none, none => none
    | none, some rr => some rr
    | some ll, none => some ll
    | some ll, some rr => some (Column.either ll rr)
  | .Unknown sql, _, _ => some (Column.Unknown sql)

/-- `sqlparser::ast::JoinOperator`, embedded with the variants `get_join`
matches on (the payloads — join constraints — are never read). -/
inductive JoinOperator where
  | Inner
  | Join
  | LeftOuter
  | Left
  | RightOuter
  | Right
  | FullOuter
  | CrossJoin
  | Semi
  | LeftSemi
  | RightSemi
  | Anti
  | LeftAnti
  | RightAnti
  | CrossApply
  | OuterApply
  | StraightJoin
  | AsOf
deriving DecidableEq, Repr

mutual

/-- `sqlparser::ast::TableFactor`, embedded with the shapes
`relation_tables` distinguishes; unrecognized factors carry their rendering. -/
inductive TableFactor where
  | Table (name : String) (al : Option String)
  | NestedJoin (table_with_joins : TableWithJoins) (al : Option String)
  | Other (sql : String)

/-- `sqlparser::ast::TableWithJoins`. -/
inductive TableWithJoins where
  | mk (relation : TableFactor) (joins : JoinList)

/-- `sqlparser::ast::Join`; `sql` models the node's `Display` rendering used
for `Table::unknown(join.to_string())`. -/
inductive JoinAst where
  | mk (join_operator : JoinOperator) (relation : TableFactor) (sql : String)

/-- The `joins` vector, as a list type usable inside the mutual block. -/
inductive JoinList where
  | nil
  | cons (head : JoinAst) (tail : JoinList)

end

/-- The join-kind table inlined in `get_join` (parser.rs lines 416-432):
`some (left_null, right_null)` for handled kinds, `none` for the kinds the
loop turns into `Table::Unknown`. -/
def join_flags : JoinOperator → Option (Bool × Bool)
  | .Inner | .Join => some (false, false)
  | .LeftOuter | .Left => some (false, true)
  | .RightOuter | .Right => some (true, false)
  | .FullOuter => some (true, true)
  | .CrossJoin => some (true, true)
  | .Semi | .LeftSemi | .RightSemi | .Anti | .LeftAnti | .RightAnti
  | .CrossApply | .OuterApply | .StraightJoin | .AsOf => none

mutual

/-- `relation_tables` from `parser.rs`. -/
def relation_tables : TableFactor → Table
  | .Table name al =>
    match al with
    | some a => Table.Alias a (Table.Db (unescape name))
    | none => Table.Db (unescape name)
  | .NestedJoin twj al =>
    match al with
    | some a => Table.Alias a (get_join twj)
    | none => get_join twj
  | .Other sql => Table.Unknown sql

/-- `get_join` from `parser.rs`: fold the join list onto the base relation. -/
def get_join : TableWithJoins → Table
  | .mk relation joins => get_join_fold (relation_tables relation) joins

/-- The loop body of `get_join`: on an unhandled join kind the Rust code
returns `Table::unknown(join.to_string())` immediately, discarding the
accumulator and the remaining joins. -/
def get_join_fold : Table → JoinList → Table
  | left, .nil => left
  | left, .cons (.mk op rel sql) rest =>
    match join_flags op with
    | some (left_null, right_null) =>
      get_join_fold (Table.Join left_null left right_null (relation_tables rel)) rest
    | none => Table.Unknown sql

end

/-! ## Parameter rewriter (sql-infer-cli/src/utils.rs)

Query text is embedded as `List Char`.  The Rust loop pushes slices
`query[last..end]` of the original string; the embedding carries the pending
slice `cur` explicitly, which is the same data (all slice boundaries fall on
the 1-byte quote characters, so byte indices and char positions agree). -/

/-- The scanning loop of `split_query` (utils.rs lines 16-42): toggle two
independent quote states; on a quote that opens, push the pending text and
start the new segment at the quote; on a quote that closes, push the pending
text including the quote. -/
def split_query_loop : List Char → Bool → Bool → List Char → List (List Char)
  | [], _, _, cur => [cur]
  | c :: rest, in_quotes, in_double_quotes, cur =>
    if c = squote then
      if in_quotes then (cur ++ [c]) :: split_query_loop rest false in_double_quotes []
      else cur :: split_query_loop rest true in_double_quotes [c]
    else if c = dquote then
      if in_double_quotes then (cur ++ [c]) :: split_query_loop rest in_quotes false []
      else cur :: split_query_loop rest in_quotes true [c]
    else split_query_loop rest in_quotes in_double_quotes (cur ++ [c])

/-- `split_query` from `utils.rs`: a leading single quote is emitted as its
own first segment, then the loop scans the remainder. -/
def split_query (q : List Char) : List (List Char) :=
  if q.head? = some squote then [squote] :: split_query_loop (q.drop 1) false false []
  else split_query_loop q false false []

/-- First character class of the placeholder regex
`:([a-z]|[A-Z]|_)([a-z]|[A-Z]|_|[0-9])*`. -/
def isIdentStart (c : Char) : Bool :=
  c.isAlpha || c = '_'

/-- Continuation character class of the placeholder regex. -/
def isIdentCont (c : Char) : Bool :=
  c.isAlpha || c.isDigit || c = '_'

/-- The regex engine's `captures_iter` over the placeholder pattern, modelled
as: a match starts at every position where a colon is immediately followed by
an identifier-start character, and extends greedily over identifier
characters.  This coincides with non-overlapping leftmost-first regex
iteration because a matched name contains no colon, so no match can begin
inside an earlier match.  Returns `(start position, name without colon)`. -/
def find_matches : Nat → List Char → List (Nat × List Char)
  | _, [] => []
  | i, c :: rest =>
    if c = ':' then
      match rest with
      | [] => []
      | d :: rest2 =>
        if isIdentStart d then
          (i, d :: rest2.takeWhile isIdentCont) :: find_matches (i + 1) rest
        else find_matches (i + 1) rest
    else find_matches (i + 1) rest

/-- Rust `str::trim`: drop Unicode whitespace from both ends (the embedding
uses `Char.isWhitespace`, which agrees on the ASCII whitespace SQL uses). -/
def rust_trim (s : List Char) : List Char :=
  ((s.dropWhile Char.isWhitespace).reverse.dropWhile Char.isWhitespace).reverse

/-- The skip condition of `parse_into_postgres` (utils.rs lines 64-71):
`query[..start].trim().ends_with(":")`. -/
def cast_guard (pre : List Char) : Bool :=
  (rust_trim pre).getLast? == some ':'

/-- Decimal rendering of a parameter index, as `format!("${param_index}")`. -/
def nat_repr (n : Nat) : List Char :=
  (Nat.repr n).data

/-- The match-processing loop of `parse_into_postgres` (utils.rs lines
60-84) over one outside-literal segment `s`: `head` is the copy cursor,
`params` the accumulated parameter names, `out` the output accumulator. -/
def process_matches (s : List Char) :
    List (Nat × List Char) → Nat → List (List Char) → List Char →
    List Char × List (List Char)
  | [], head, params, out => (out ++ s.drop head, params)
  | (start, name) :: ms, head, params, out =>
    if cast_guard (s.take start) then process_matches s ms head params out
    else
      let out1 := out ++ (s.drop head).take (start - head)
      match params.findIdx? (fun p => p == name) with
      | some i =>
        process_matches s ms (start + 1 + name.length) params
          (out1 ++ '$' :: nat_repr (1 + i))
      | none =>
        process_matches s ms (start + 1 + name.length) (params ++ [name])
          (out1 ++ '$' :: nat_repr (params.length + 1))

/-- The segment loop of `parse_into_postgres`: odd-indexed segments are
copied verbatim, even-indexed segments are processed for placeholders. -/
def rewrite_loop : List (List Char) → Nat → List (List Char) → List Char →
    List Char × List (List Char)
  | [], _, params, out => (out, params)
  | seg :: rest, id, params, out =>
    if id % 2 = 1 then rewrite_loop rest (id + 1) params (out ++ seg)
    else
      let r := process_matches seg (find_matches 0 seg) 0 params out
      rewrite_loop rest (id + 1) r.2 r.1

/-- `parse_into_postgres` from `utils.rs`: returns
`(raw_query, params)`.  The regex construction cannot fail, so the Rust
`Result` is always `Ok` and is dropped. -/
def parse_into_postgres (q : List Char) : List Char × List (List Char) :=
  rewrite_loop (split_query q) 0 [] []

/-! ## Inference driver (sql-infer-core/src/inference.rs, lib.rs) and the
CLI pipeline (sql-infer-cli/src/commands/generate.rs)

The database pool and the external sqlparser are abstracted into an
environment: `prepare` yields the prepared statement's column and parameter
metadata already run through `SqlType::from_pg_type_info` (name rendering and
type conversion of the driver's `PgTypeInfo`), `to_ast` is the AST adapter
over an abstract statement type, `find_fields` the provenance resolver on one
statement, and `info_schema` the catalog lookup.  Rust `Result`s from
external calls become `Option`. -/

/-- The abstracted collaborators of one inference run. -/
structure InferEnv (Stmt : Type) where
  prepare : List Char → Option (List (String × SqlType) × List (String × SqlType))
  to_ast : List Char → Option (List Stmt)
  find_fields : Stmt → Option (List (String × Column))
  info_schema : String → String → Option InformationSchema

/-- One inference pass (`dyn UseInformationSchema`), as a pure update. -/
def Pass : Type :=
  Schemas → Column → QueryItem → QueryItem

/-- `HashMap::insert` on the schema map. -/
def insertSchema (m : Schemas) (key : Column) (v : InformationSchema) : Schemas :=
  fun k => if k = key then some v else m k

/-- `get_all_info_schema` from `inference.rs`: walk the provenance
expression, fetch the catalog row of every `DependsOn`, record each level's
aggregate schema in the map under that level's node, and return the
aggregate. -/
def get_all_info_schema {Stmt : Type} (env : InferEnv Stmt) :
    Column → Schemas → Schemas × Option InformationSchema :=
  fun source map =>
    let step : Schemas × Option InformationSchema :=
      match source with
      | .DependsOn table column => (map, env.info_schema table column)
      | .Maybe column => get_all_info_schema env column map
      | .Either left right =>
        let l := get_all_info_schema env left map
        let r := get_all_info_schema env right l.1
        (r.1,
          match l.2, r.2 with
          | none, none => none
          | none, some rs => some rs
          | some ls, none => some ls
          | some _, some _ => none)
      | .Unknown _ => (map, none)
      | .Cast src _ => get_all_info_schema env src map
      | .BinaryOp _ left right =>
        let l := get_all_info_schema env left map
        let r := get_all_info_schema env right l.1
        (r.1, none)
      | .Value _ => (map, none)
    match step.2 with
    | some s => (insertSchema step.1 source s, some s)
    | none => (step.1, none)

/-- `update_with_info` from `inference.rs`: collect schemas, then apply every
registered pass in order. -/
def update_with_info {Stmt : Type} (env : InferEnv Stmt) (source : Column)
    (item : QueryItem) (passes : List Pass) : QueryItem :=
  let map := (get_all_info_schema env source (fun _ => none)).1
  passes.foldl (fun it pass => pass map source it) item

/-- The field-map lookup `fields.get(&output.name)`. -/
def lookupField (fields : List (String × Column)) (name : String) : Option Column :=
  (fields.find? (fun f => f.1 == name)).map (fun f => f.2)

/-- `apply_passes` from `inference.rs`: parse `query` via the AST adapter,
take the first statement, build the field map, and refine each output item
whose name resolves (a missing name is only warned about and the item kept). -/
def apply_passes {Stmt : Type} (env : InferEnv Stmt) (query : List Char)
    (output_types : List QueryItem) (passes : List Pass) :
    Option (List QueryItem) :=
  match env.to_ast query with
  | none => none
  | some statements =>
    match statements.head? with
    | none => none
    | some statement =>
      match env.find_fields statement with
      | none => none
      | some fields =>
        some (output_types.map (fun output =>
          match lookupField fields output.name with
          | some column => update_with_info env column output passes
          | none => output))

/-- `check_statement` from `inference.rs`: prepare `query`, build base items
with `Unknown` nullability, then run `apply_passes` on the same `query`
text.  (The Rust code zips the parameter list with itself, so an input item's
name is its type info's rendering.) -/
def check_statement {Stmt : Type} (env : InferEnv Stmt) (query : List Char)
    (passes : List Pass) : Option QueryTypes :=
  match env.prepare query with
  | none => none
  | some prepared =>
    let result_types := prepared.1.map (fun c => QueryItem.mk c.1 c.2 .Unknown)
    let input_types := prepared.2.map (fun p => QueryItem.mk p.1 p.2 .Unknown)
    match apply_passes env query result_types passes with
    | none => none
    | some refined => some (QueryTypes.mk input_types refined)

/-- The per-file step of `Generate::run` (generate.rs lines 90-99): rewrite
the file's text, then call `SqlInfer::infer_types` — which is
`check_statement` — on the REWRITTEN `raw_query`. -/
def generate_infer {Stmt : Type} (env : InferEnv Stmt) (query : List Char)
    (passes : List Pass) : Option QueryTypes :=
  check_statement env (parse_into_postgres query).1 passes

/-- Modelled from the spec (§4.6 step 2), for comparison with
`generate_infer`: prepare the rewritten `raw_query` but build the field map
by parsing the ORIGINAL pre-rewrite query text, as the claim states.  This is
the spec's words, not the repository's code. -/
def generate_infer_parse_original {Stmt : Type} (env : InferEnv Stmt)
    (query : List Char) (passes : List Pass) : Option QueryTypes :=
  match env.prepare (parse_into_postgres query).1 with
  | none => none
  | some prepared =>
    let result_types := prepared.1.map (fun c => QueryItem.mk c.1 c.2 .Unknown)
    let input_types := prepared.2.map (fun p => QueryItem.mk p.1 p.2 .Unknown)
    match apply_passes env query result_types passes with
    | none => none
    | some refined => some (QueryTypes.mk input_types refined)

/-! ## Specification-side definitions for the rewriter laws

These definitions restate the spec's description of the rewriter's output
(deduplicated first-appearance parameter list, `$k` indices against the final
list, literal bodies copied verbatim); the theorems below relate them to the
embedded `parse_into_postgres`. -/

/-- Parameter-list accumulation for one occurrence: append the name unless
already present (the `position ... unwrap_or_else(push)` idiom). -/
def insert_name (params : List (List Char)) (n : List Char) : List (List Char) :=
  match params.findIdx? (fun p => p == n) with
  | some _ => params
  | none => params ++ [n]

/-- First-appearance deduplication of a name sequence. -/
def dedup_first (l : List (List Char)) : List (List Char) :=
  l.foldl insert_name []

/-- The names of the matches in one outside-literal segment that pass the
cast guard, in textual order. -/
def seg_names (s : List Char) : List (Nat × List Char) → List (List Char)
  | [] => []
  | (start, name) :: ms =>
    if cast_guard (s.take start) then seg_names s ms
    else name :: seg_names s ms

/-- All rewritten placeholder occurrences of a segment list, in order. -/
def occ_names_loop : List (List Char) → Nat → List (List Char)
  | [], _ => []
  | seg :: rest, id =>
    if id % 2 = 1 then occ_names_loop rest (id + 1)
    else seg_names seg (find_matches 0 seg) ++ occ_names_loop rest (id + 1)

/-- The sequence of placeholder names the rewriter processes for input `q`,
in order of textual appearance. -/
def occ_names (q : List Char) : List (List Char) :=
  occ_names_loop (split_query q) 0

/-- Index of a name in the final parameter list (total; every processed name
is in the list). -/
def idx_of (params : List (List Char)) (n : List Char) : Nat :=
  (params.findIdx? (fun p => p == n)).getD 0

/-- Spec-side rendering of one segment against a FIXED final parameter list
`P`: every occurrence of `name` becomes `$(1 + idx_of P name)`. -/
def gold_process (P : List (List Char)) (s : List Char) :
    List (Nat × List Char) → Nat → List Char → List Char
  | [], head, out => out ++ s.drop head
  | (start, name) :: ms, head, out =>
    if cast_guard (s.take start) then gold_process P s ms head out
    else
      gold_process P s ms (start + 1 + name.length)
        (out ++ (s.drop head).take (start - head) ++ '$' :: nat_repr (1 + idx_of P name))

/-- Spec-side rendering of the whole segment list against a fixed final
parameter list. -/
def gold_loop (P : List (List Char)) : List (List Char) → Nat → List Char → List Char
  | [], _, out => out
  | seg :: rest, id, out =>
    if id % 2 = 1 then gold_loop P rest (id + 1) (out ++ seg)
    else gold_loop P rest (id + 1) (gold_process P seg (find_matches 0 seg) 0 out)

/-! ### Literal-safe input decompositions (for the literal-safety law)

An input is presented as alternating quote-free outside text and quoted
literals whose bodies contain no quote character of either kind, closed by a
quote-free tail.  Each chunk is `(outside, quote, body)`. -/

/-- One outside-text/literal chunk. -/
def Chunk : Type :=
  List Char × Char × List Char

/-- Concatenate the decomposition back into raw query text. -/
def render_chunks : List Chunk → List Char → List Char
  | [], fin => fin
  | (o, qc, b) :: rest, fin => o ++ qc :: (b ++ qc :: render_chunks rest fin)

/-- Contains neither kind of quote character. -/
def quote_free (s : List Char) : Prop :=
  ∀ c ∈ s, c ≠ squote ∧ c ≠ dquote

/-- Well-formed chunk: a real quote character, quote-free outside text and
body. -/
def chunk_ok (c : Chunk) : Prop :=
  (c.2.1 = squote ∨ c.2.1 = dquote) ∧ quote_free c.1 ∧ quote_free c.2.2

/-- Well-formed decomposition. -/
def chunks_ok (cs : List Chunk) (fin : List Char) : Prop :=
  (∀ c ∈ cs, chunk_ok c) ∧ quote_free fin

instance (s : List Char) : Decidable (quote_free s) := by
  unfold quote_free; infer_instance

instance (c : Chunk) : Decidable (chunk_ok c) := by
  unfold chunk_ok; infer_instance

instance (cs : List Chunk) (fin : List Char) : Decidable (chunks_ok cs fin) := by
  unfold chunks_ok; infer_instance

/-- The segment list `split_query` produces on a well-formed decomposition,
stated by the boundary-state machine: `inq` is the scanner's single-quote
state and `cur` the pending slice at a chunk boundary. -/
def segs_of_aux : Bool → List Char → List Chunk → List Char → List (List Char)
  | _, cur, [], fin => [cur ++ fin]
  | inq, cur, (o, qc, b) :: rest, fin =>
    if qc = squote then
      if inq then (cur ++ o ++ [squote]) :: b :: segs_of_aux true [squote] rest fin
      else (cur ++ o) :: (squote :: (b ++ [squote])) :: segs_of_aux false [] rest fin
    else (cur ++ o) :: (qc :: (b ++ [qc])) :: segs_of_aux inq [] rest fin

/-- Top-level segment list, with the leading-single-quote special case. -/
def segs_of (cs : List Chunk) (fin : List Char) : List (List Char)  :=
  match cs with
  | (o, qc, b) :: rest =>
    if o = [] ∧ qc = squote then [squote] :: b :: segs_of_aux true [squote] rest fin
    else segs_of_aux false [] cs fin
  | [] => segs_of_aux false [] [] fin

/-- Process one outside-literal segment from scratch (matches found at
offset 0), threading params and output. -/
def process_seg (s : List Char) (params : List (List Char)) (out : List Char) :
    List Char × List (List Char) :=
  process_matches s (find_matches 0 s) 0 params out

/-- Spec-side rewriting of a well-formed decomposition: outside segments are
processed for placeholders, and every literal body `b` is appended to the
output VERBATIM (`r.1 ++ b …`), never handed to `process_seg`. -/
def chunks_rewrite_aux : Bool → List Char → List Chunk → List Char →
    List (List Char) → List Char → List Char × List (List Char)
  | _, cur, [], fin, params, out => process_seg (cur ++ fin) params out
  | inq, cur, (o, qc, b) :: rest, fin, params, out =>
    if qc = squote then
      if inq then
        let r := process_seg (cur ++ o ++ [squote]) params out
        chunks_rewrite_aux true [squote] rest fin r.2 (r.1 ++ b)
      else
        let r := process_seg (cur ++ o) params out
        chunks_rewrite_aux false [] rest fin r.2 (r.1 ++ (squote :: (b ++ [squote])))
    else
      let r := process_seg (cur ++ o) params out
      chunks_rewrite_aux inq [] rest fin r.2 (r.1 ++ (qc :: (b ++ [qc])))

/-- Top-level spec-side rewriting of a decomposition. -/
def chunks_rewrite (cs : List Chunk) (fin : List Char) :
    List Char × List (List Char) :=
  match cs with
  | (o, qc, b) :: rest =>
    if o = [] ∧ qc = squote then
      let r := process_seg [squote] [] []
      chunks_rewrite_aux true [squote] rest fin r.2 (r.1 ++ b)
    else chunks_rewrite_aux false [] cs fin [] []
  | [] => chunks_rewrite_aux false [] [] fin [] []

/-! ## Theorems -/

/-- C1: the ColumnNullability pass computes an output item's nullability as
the stated fold over its provenance expression: `DependsOn` maps the catalog
schema's `is_nullable` to True/False (absent entry: Unknown), `Maybe` is
always True, `Value Null` is True and other values False, `Cast` is
transparent, `Either l r` is decided by `nullable l` alone unless that is
False (and is Unknown when `nullable l` is Unknown, without consulting `r`),
and Unknown provenance is Unknown. -/
theorem c1_nullability_fold (schemas : Schemas) (t c : String) (x l r : Column)
    (v : ValueType) (s : InformationSchema) (dt : DataType) (sql : String) :
    (schemas (Column.DependsOn t c) = some s → s.is_nullable = some true →
      column_is_nullable (Column.DependsOn t c) schemas = .True)
    ∧ (schemas (Column.DependsOn t c) = some s → s.is_nullable = some false →
      column_is_nullable (Column.DependsOn t c) schemas = .False)
    ∧ (schemas (Column.DependsOn t c) = some s → s.is_nullable = none →
      column_is_nullable (Column.DependsOn t c) schemas = .Unknown)
    ∧ (schemas (Column.DependsOn t c) = none →
      column_is_nullable (Column.DependsOn t c) schemas = .Unknown)
    ∧ column_is_nullable (Column.Maybe x) schemas = .True
    ∧ column_is_nullable (Column.Value ValueType.Null) schemas = .True
    ∧ (v ≠ ValueType.Null → column_is_nullable (Column.Value v) schemas = .False)
    ∧ column_is_nullable (Column.Cast x dt) schemas = column_is_nullable x schemas
    ∧ (column_is_nullable l schemas = .True →
      column_is_nullable (Column.Either l r) schemas = .True)
    ∧ (column_is_nullable l schemas = .False →
      column_is_nullable (Column.Either l r) schemas = column_is_nullable r schemas)
    ∧ (column_is_nullable l schemas = .Unknown →
      column_is_nullable (Column.Either l r) schemas = .Unknown)
    ∧ column_is_nullable (Column.Unknown sql) schemas = .Unknown := by
  refine ⟨?_, ?_, ?_, ?_, ?_, ?_, ?_, ?_, ?_, ?_, ?_, ?_⟩
  · intro h1 h2; simp [column_is_nullable, h1, h2]
  · intro h1 h2; simp [column_is_nullable, h1, h2]
  · intro h1 h2; simp [column_is_nullable, h1, h2]
  · intro h1; simp [column_is_nullable, h1]
  · simp [column_is_nullable]
  · simp [column_is_nullable]
  · intro hv
    cases v with
    | Null => exact absurd rfl hv
    | Boolean => simp [column_is_nullable]
    | Int => simp [column_is_nullable]
    | Float => simp [column_is_nullable]
    | String => simp [column_is_nullable]
  · simp [column_is_nullable]
  · intro h; simp [column_is_nullable, h]
  · intro h; simp [column_is_nullable, h]
  · intro h; simp [column_is_nullable, h]
  · simp [column_is_nullable]

/-- Witness for C1 at concrete inputs: a schema map carrying a nullable entry
for `t.c` yields `True`, and a non-null literal yields `False`. -/
theorem c1_nullability_fold_witness :
    column_is_nullable (Column.DependsOn "t" "c")
      (fun col => if col = Column.DependsOn "t" "c"
        then some (InformationSchema.mk (some true) none none none none none)
        else none) = .True
    ∧ column_is_nullable (Column.Value ValueType.Int) (fun _ => none) = .False := by
  constructor
  · exact (c1_nullability_fold _ "t" "c" (Column.Value .Null) (Column.Value .Null)
      (Column.Value .Null) .Int
      (InformationSchema.mk (some true) none none none none none) ⟨""⟩ "").1
      (by simp) rfl
  · exact (c1_nullability_fold (fun _ => none) "t" "c" (Column.Value .Null)
      (Column.Value .Null) (Column.Value .Null) .Int
      (InformationSchema.mk (some true) none none none none none) ⟨""⟩ "").2.2.2.2.2.2.1
      (by simp)

/-- C10: `BinaryOpData::not_null` returns `Some(false)` for every operator
classification, so the `not_null() == Some(true)` shortcut of the nullability
fold is unreachable and a `BinaryOp`'s nullability is always the Either-style
fold of its operands — in particular for comparison/logical operators
classified `ConstantType(Bool)`. -/
theorem c10_binop_never_not_null (op : BinaryOpData) (schemas : Schemas)
    (l r : Column) :
    op.not_null = some false
    ∧ column_is_nullable (Column.BinaryOp op l r) schemas
      = column_is_nullable (Column.Either l r) schemas := by
  refine ⟨rfl, ?_⟩
  simp [column_is_nullable, BinaryOpData.not_null]

/-- C8 helper: a provenance expression with no `Cast` node never makes
`includes_cast` return `some true`. -/
theorem includes_cast_of_no_cast (c : Column) (h : containsCast c = false) :
    includes_cast c ≠ some true := by
  induction c with
  | DependsOn t col => simp [includes_cast]
  | Maybe inner ih =>
    simp [containsCast] at h
    simpa [includes_cast] using ih h
  | Either l r ihl ihr =>
    simp [containsCast] at h
    have hl := ihl h.1
    have hr := ihr h.2
    simp only [includes_cast]
    cases hcl : includes_cast l with
    | none => simp
    | some bl =>
      cases hcr : includes_cast r with
      | none => simp
      | some br =>
        rw [hcl] at hl
        rw [hcr] at hr
        simp at hl hr
        simp [hl, hr]
  | Unknown sql => simp [includes_cast]
  | Cast src dt ih => simp [containsCast] at h
  | BinaryOp op l r ihl ihr => simp [includes_cast]
  | Value v => simp [includes_cast]

/-- C8: when an item's provenance contains no `Cast` node, the TextLength and
DecimalPrecision passes leave the item completely unchanged, whatever the
collected schemas. -/
theorem c8_no_cast_frame (schemas : Schemas) (col : Column) (item : QueryItem)
    (h : containsCast col = false) :
    TextLength.apply schemas col item = item
    ∧ DecimalPrecision.apply schemas col item = item := by
  have hic := includes_cast_of_no_cast col h
  constructor
  · unfold TextLength.apply
    cases schemas col with
    | none => rfl
    | some schema => simp [hic]
  · unfold DecimalPrecision.apply
    cases schemas col with
    | none => rfl
    | some schema => simp [hic]

/-- Witness for C8: a cast-free provenance, a schema map with data for it,
and a VarChar/Decimal item are all left unchanged. -/
theorem c8_no_cast_frame_witness :
    containsCast (Column.DependsOn "t" "c") = false
    ∧ TextLength.apply
        (fun _ => some (InformationSchema.mk (some true) (some 7) (some 9) (some 2) none none))
        (Column.DependsOn "t" "c") (QueryItem.mk "x" (SqlType.VarChar none) .Unknown)
      = QueryItem.mk "x" (SqlType.VarChar none) .Unknown
    ∧ DecimalPrecision.apply
        (fun _ => some (InformationSchema.mk (some true) (some 7) (some 9) (some 2) none none))
        (Column.DependsOn "t" "c") (QueryItem.mk "x" (SqlType.Decimal none none) .Unknown)
      = QueryItem.mk "x" (SqlType.Decimal none none) .Unknown := by
  refine ⟨by decide, (c8_no_cast_frame _ _ _ (by decide)).1, (c8_no_cast_frame _ _ _ (by decide)).2⟩

/-- C6 (the claim is right, the code has the typos): the snapshot's
`SqlType::from_str` maps `BIT` to `Char`, `VARBIT` to `VarChar` and `JSONB`
to `Json`, not to `Bit`/`VarBit`/`Jsonb` as the spec directs. -/
theorem c6_from_str_typos :
    SqlType.from_str "BIT" = SqlType.Char none
    ∧ SqlType.from_str "VARBIT" = SqlType.VarChar none
    ∧ SqlType.from_str "JSONB" = SqlType.Json
    ∧ SqlType.from_str "BIT" ≠ SqlType.Bit none
    ∧ SqlType.from_str "VARBIT" ≠ SqlType.VarBit none
    ∧ SqlType.from_str "JSONB" ≠ SqlType.Jsonb := by
  decide

/-- C7 counterexample: `Column`'s derived equality is structural, so `Either`
is NOT commutative: swapping the children of an `Either` with distinct
children yields an unequal value. -/
theorem c7_either_eq_counterexample :
    ¬(Column.Either (Column.DependsOn "t" "a") (Column.DependsOn "t" "b")
      = Column.Either (Column.DependsOn "t" "b") (Column.DependsOn "t" "a")) := by
  decide

/-- C7 amended: equality on provenance expressions is structural; an `Either`
equals its own swap exactly when the two children are equal. -/
theorem c7_either_eq_amended (a b : Column) :
    Column.Either a b = Column.Either b a ↔ a = b := by
  constructor
  · intro h
    injection h with h1 h2
  · intro h
    subst h
    rfl

/-- Witness for C7 amended at a concrete expression. -/
theorem c7_either_eq_amended_witness :
    Column.Either (Column.Value .Null) (Column.Value .Null)
      = Column.Either (Column.Value .Null) (Column.Value .Null) :=
  (c7_either_eq_amended (Column.Value .Null) (Column.Value .Null)).mpr rfl

/-- C4: join folding uses exactly the spec's null-extension table —
INNER/plain JOIN extend neither side, LEFT only the right, RIGHT only the
left, FULL OUTER and CROSS JOIN both, and SEMI/ANTI/APPLY/STRAIGHT/AS OF
joins become `Unknown` — and resolving an unqualified column against a
`Join` yields `Either` of the two sides with `Maybe` wrapping exactly the
flagged sides, e.g. `select c from a left join b` wraps the right side. -/
theorem c4_join_table (tf1 tf2 : TableFactor) (s : String) (ln rn : Bool)
    (L R : Table) (i : String) :
    get_join (.mk tf1 (.cons (.mk .Inner tf2 s) .nil))
      = Table.Join false (relation_tables tf1) false (relation_tables tf2)
    ∧ get_join (.mk tf1 (.cons (.mk .Join tf2 s) .nil))
      = Table.Join false (relation_tables tf1) false (relation_tables tf2)
    ∧ get_join (.mk tf1 (.cons (.mk .LeftOuter tf2 s) .nil))
      = Table.Join false (relation_tables tf1) true (relation_tables tf2)
    ∧ get_join (.mk tf1 (.cons (.mk .Left tf2 s) .nil))
      = Table.Join false (relation_tables tf1) true (relation_tables tf2)
    ∧ get_join (.mk tf1 (.cons (.mk .RightOuter tf2 s) .nil))
      = Table.Join true (relation_tables tf1) false (relation_tables tf2)
    ∧ get_join (.mk tf1 (.cons (.mk .Right tf2 s) .nil))
      = Table.Join true (relation_tables tf1) false (relation_tables tf2)
    ∧ get_join (.mk tf1 (.cons (.mk .FullOuter tf2 s) .nil))
      = Table.Join true (relation_tables tf1) true (relation_tables tf2)
    ∧ get_join (.mk tf1 (.cons (.mk .CrossJoin tf2 s) .nil))
      = Table.Join true (relation_tables tf1) true (relation_tables tf2)
    ∧ get_join (.mk tf1 (.cons (.mk .Semi tf2 s) .nil)) = Table.Unknown s
    ∧ get_join (.mk tf1 (.cons (.mk .LeftSemi tf2 s) .nil)) = Table.Unknown s
    ∧ get_join (.mk tf1 (.cons (.mk .RightSemi tf2 s) .nil)) = Table.Unknown s
    ∧ get_join (.mk tf1 (.cons (.mk .Anti tf2 s) .nil)) = Table.Unknown s
    ∧ get_join (.mk tf1 (.cons (.mk .LeftAnti tf2 s) .nil)) = Table.Unknown s
    ∧ get_join (.mk tf1 (.cons (.mk .RightAnti tf2 s) .nil)) = Table.Unknown s
    ∧ get_join (.mk tf1 (.cons (.mk .CrossApply tf2 s) .nil)) = Table.Unknown s
    ∧ get_join (.mk tf1 (.cons (.mk .OuterApply tf2 s) .nil)) = Table.Unknown s
    ∧ get_join (.mk tf1 (.cons (.mk .StraightJoin tf2 s) .nil)) = Table.Unknown s
    ∧ get_join (.mk tf1 (.cons (.mk .AsOf tf2 s) .nil)) = Table.Unknown s
    ∧ Table.find_column (Table.Join ln L rn R) i
      = Column.either (if ln then (L.find_column i).maybe else L.find_column i)
          (if rn then (R.find_column i).maybe else R.find_column i)
    ∧ (get_join (.mk (.Table "a" none) (.cons (.mk .Left (.Table "b" none) s) .nil))).find_column "c"
      = Column.Either (Column.DependsOn "a" "c") (Column.Maybe (Column.DependsOn "b" "c")) := by
  refine ⟨?_, ?_, ?_, ?_, ?_, ?_, ?_, ?_, ?_, ?_, ?_, ?_, ?_, ?_, ?_, ?_, ?_, ?_, ?_, ?_⟩
  all_goals first
  | (simp [get_join, get_join_fold, join_flags]; done)
  | rfl

/-- C2 counterexample: in the input `"a'b" ':x'` (a double-quoted identifier
containing a single quote, followed by an ordinary single-quoted literal) the
placeholder `:x` lies inside the single-quoted literal, yet the rewriter
replaces it by `$1` and reports parameter `x`: interleaved quote kinds break
the even/odd segment alternation, so the occurrence is not copied verbatim. -/
theorem c2_literal_safety_counterexample :
    parse_into_postgres
        [dquote, 'a', squote, 'b', dquote, ' ', squote, ':', 'x', squote]
      = ([dquote, 'a', squote, 'b', dquote, ' ', squote, '$', '1', squote],
         [['x']])
    ∧ (parse_into_postgres
        [dquote, 'a', squote, 'b', dquote, ' ', squote, ':', 'x', squote]).1
      ≠ [dquote, 'a', squote, 'b', dquote, ' ', squote, ':', 'x', squote] := by
  constructor
  · decide
  · decide

/-- C5 counterexample: in `: :x` the character immediately preceding the
match `:x` is a space, so by the claim it would be rewritten to `$1`; the
code trims whitespace before testing for the cast colon and therefore skips
it — the input passes through unchanged and no parameter is produced. -/
theorem c5_cast_guard_counterexample :
    parse_into_postgres [':', ' ', ':', 'x'] = ([':', ' ', ':', 'x'], []) := by
  decide

/-- Concrete query text exercising C9: it contains a `:x` placeholder, so its
rewritten form differs from the original. -/
def c9_query : List Char :=
  ("select a from t where a = " ++ ":x").data

/-- Concrete environment for C9 whose AST adapter distinguishes the original
text (statement `0`, whose field resolves to `Value Null`) from every other
text (statement `1`, whose field resolves to `Value Int`), making the parsed
text observable through the ColumnNullability pass. -/
def c9_env : InferEnv Nat :=
  InferEnv.mk
    (fun _ => some ([("a", SqlType.Int4)], [("INT4", SqlType.Int4)]))
    (fun q => if q = c9_query then some [0] else some [1])
    (fun s => if s = 0 then some [("a", Column.Value .Null)]
              else some [("a", Column.Value .Int)])
    (fun _ _ => none)

/-- C9 counterexample: the driver does NOT parse the original pre-rewrite
text.  With `c9_env`, building the field map from the original text would
mark output `a` nullable (`Value Null`), but the pipeline reports it
non-nullable, because `check_statement` hands `apply_passes` the same
rewritten `$N` text it prepared (generate.rs line 92, inference.rs line
463). -/
theorem c9_parse_original_counterexample :
    generate_infer c9_env c9_query [ColumnNullability.apply]
      ≠ generate_infer_parse_original c9_env c9_query [ColumnNullability.apply]
    ∧ generate_infer c9_env c9_query [ColumnNullability.apply]
      = some (QueryTypes.mk [QueryItem.mk "INT4" SqlType.Int4 .Unknown]
          [QueryItem.mk "a" SqlType.Int4 .False])
    ∧ generate_infer_parse_original c9_env c9_query [ColumnNullability.apply]
      = some (QueryTypes.mk [QueryItem.mk "INT4" SqlType.Int4 .Unknown]
          [QueryItem.mk "a" SqlType.Int4 .True]) := by
  refine ⟨by decide, by decide, by decide⟩

/-- Helper: the schema-collection walk reads the environment only through
`info_schema`, so environments agreeing there collect identical maps. -/
theorem get_all_info_schema_congr {Stmt Stmt2 : Type} (env : InferEnv Stmt)
    (env2 : InferEnv Stmt2) (h : env.info_schema = env2.info_schema) :
    ∀ (c : Column) (m : Schemas),
      get_all_info_schema env c m = get_all_info_schema env2 c m := by
  intro c
  induction c with
  | DependsOn t col => intro m; simp only [get_all_info_schema, h]
  | Maybe inner ih => intro m; simp only [get_all_info_schema]; rw [ih m]
  | Either l r ihl ihr =>
    intro m
    simp only [get_all_info_schema]
    rw [ihl m, ihr]
  | Unknown s => intro m; simp only [get_all_info_schema]
  | Cast src dt ih => intro m; simp only [get_all_info_schema]; rw [ih m]
  | BinaryOp op l r ihl ihr =>
    intro m
    simp only [get_all_info_schema]
    rw [ihl m, ihr]
  | Value v => intro m; simp only [get_all_info_schema]

/-- Helper: `update_with_info` likewise depends only on `info_schema`. -/
theorem update_with_info_congr {Stmt Stmt2 : Type} (env : InferEnv Stmt)
    (env2 : InferEnv Stmt2) (h : env.info_schema = env2.info_schema)
    (source : Column) (item : QueryItem) (passes : List Pass) :
    update_with_info env source item passes
      = update_with_info env2 source item passes := by
  simp only [update_with_info]
  rw [get_all_info_schema_congr env env2 h source]

/-- C9 amended: the driver builds the field map by parsing the same rewritten
`$N`-form text it prepared.  Consequently the pipeline's result depends on
the AST adapter only through its value at the rewritten text: two
environments agreeing there (and on the other collaborators) yield identical
results, whatever the adapter would answer for the original text. -/
theorem c9_parses_rewritten_text {Stmt : Type} (env env2 : InferEnv Stmt)
    (q : List Char) (passes : List Pass)
    (hp : env.prepare = env2.prepare)
    (hf : env.find_fields = env2.find_fields)
    (hi : env.info_schema = env2.info_schema)
    (ha : env.to_ast (parse_into_postgres q).1 = env2.to_ast (parse_into_postgres q).1) :
    generate_infer env q passes = generate_infer env2 q passes := by
  obtain ⟨p1, a1, f1, i1⟩ := env
  obtain ⟨p2, a2, f2, i2⟩ := env2
  simp only at hp hf hi ha
  subst hp; subst hf; subst hi
  have hu : ∀ (col : Column) (out : QueryItem),
      update_with_info (InferEnv.mk p1 a1 f1 i1) col out passes
        = update_with_info (InferEnv.mk p1 a2 f1 i1) col out passes :=
    fun col out =>
      update_with_info_congr (InferEnv.mk p1 a1 f1 i1) (InferEnv.mk p1 a2 f1 i1)
        rfl col out passes
  simp only [generate_infer, check_statement, apply_passes, ha, hu]

/-- Witness for C9 amended: two concrete environments that agree at the
rewritten text but disagree at the original text produce the same result. -/
theorem c9_parses_rewritten_text_witness :
    (c9_env.to_ast (parse_into_postgres c9_query).1
      = (InferEnv.mk c9_env.prepare (fun _ => some [1]) c9_env.find_fields
          c9_env.info_schema).to_ast (parse_into_postgres c9_query).1)
    ∧ generate_infer c9_env c9_query [ColumnNullability.apply]
      = generate_infer
          (InferEnv.mk c9_env.prepare (fun _ => some [1]) c9_env.find_fields
            c9_env.info_schema)
          c9_query [ColumnNullability.apply] :=
  ⟨by decide,
   c9_parses_rewritten_text _ _ c9_query [ColumnNullability.apply] rfl rfl rfl (by decide)⟩

/-! ### Rewriter laws: parameter-list accumulation lemmas -/

/-- Helper: a successful `findIdx?` is preserved by extending the list. -/
theorem findIdx?_append_some {α : Type} (f : α → Bool) (t : List α) :
    ∀ (p : List α) (i : Nat), p.findIdx? f = some i → (p ++ t).findIdx? f = some i := by
  intro p
  induction p with
  | nil => intro i h; simp at h
  | cons x xs ih =>
    intro i h
    by_cases hx : f x
    · simpa [hx] using h
    · cases hxs : List.findIdx? f xs with
      | none => simp [List.findIdx?_cons, hx, List.findIdx?_start_succ, hxs] at h
      | some j =>
        have h2 := ih j hxs
        simp only [List.findIdx?_cons, hx, if_false, List.findIdx?_start_succ, hxs,
          Option.map_some'] at h
        simp only [List.cons_append, List.findIdx?_cons, hx, if_false,
          List.findIdx?_start_succ, h2, Option.map_some']
        exact h

/-- Helper: if no element of `p` matches, the first match in `p ++ n :: t`
with `f n` true sits at index `p.length`. -/
theorem findIdx?_append_none_cons {α : Type} (f : α → Bool) (n : α) (t : List α)
    (hn : f n = true) :
    ∀ (p : List α), (∀ y ∈ p, f y = false) → (p ++ n :: t).findIdx? f = some p.length := by
  intro p
  induction p with
  | nil => intro _; simp [hn]
  | cons x xs ih =>
    intro hp
    have hx : f x = false := hp x (List.mem_cons_self x xs)
    have hxs := ih (fun y hy => hp y (List.mem_cons_of_mem x hy))
    simp [hx, hxs]

/-- Helper: `insert_name` leaves the list unchanged when the name is found. -/
theorem insert_name_found (p : List (List Char)) (n : List Char) (i : Nat)
    (h : p.findIdx? (fun m => m == n) = some i) : insert_name p n = p := by
  simp [insert_name, h]

/-- Helper: `insert_name` appends when the name is absent. -/
theorem insert_name_not_found (p : List (List Char)) (n : List Char)
    (h : p.findIdx? (fun m => m == n) = none) : insert_name p n = p ++ [n] := by
  simp [insert_name, h]

/-- Helper: the parameter list only ever grows by appending. -/
theorem foldl_insert_name_extends :
    ∀ (l : List (List Char)) (p : List (List Char)),
      ∃ t, l.foldl insert_name p = p ++ t := by
  intro l
  induction l with
  | nil => intro p; exact ⟨[], by simp⟩
  | cons n ns ih =>
    intro p
    obtain ⟨t, ht⟩ := ih (insert_name p n)
    cases h : p.findIdx? (fun m => m == n) with
    | some i =>
      refine ⟨t, ?_⟩
      simpa [insert_name_found p n i h] using ht
    | none =>
      refine ⟨[n] ++ t, ?_⟩
      rw [List.foldl_cons, ht, insert_name_not_found p n h, List.append_assoc]

/-- Helper: membership in the accumulated parameter list. -/
theorem mem_foldl_insert_name :
    ∀ (l : List (List Char)) (p : List (List Char)) (n : List Char),
      n ∈ l.foldl insert_name p ↔ n ∈ p ∨ n ∈ l := by
  intro l
  induction l with
  | nil => intro p n; simp
  | cons m ms ih =>
    intro p n
    rw [List.foldl_cons, ih]
    cases h : p.findIdx? (fun x => x == m) with
    | some i =>
      rw [insert_name_found p m i h]
      have hm : m ∈ p := by
        by_contra hmem
        have : p.findIdx? (fun x => x == m) = none := by
          rw [List.findIdx?_eq_none_iff]
          intro y hy
          simp only [beq_eq_false_iff_ne]
          intro heq
          exact hmem (heq ▸ hy)
        simp [this] at h
      constructor
      · intro hc; rcases hc with hc | hc
        · exact Or.inl hc
        · exact Or.inr (List.mem_cons_of_mem m hc)
      · intro hc; rcases hc with hc | hc
        · exact Or.inl hc
        · rcases List.mem_cons.mp hc with rfl | hc
          · exact Or.inl hm
          · exact Or.inr hc
    | none =>
      rw [insert_name_not_found p m h]
      simp only [List.mem_append, List.mem_singleton, List.mem_cons]
      tauto

/-- Helper: the accumulated parameter list has no duplicates. -/
theorem nodup_foldl_insert_name :
    ∀ (l : List (List Char)) (p : List (List Char)),
      p.Nodup → (l.foldl insert_name p).Nodup := by
  intro l
  induction l with
  | nil => intro p hp; simpa using hp
  | cons m ms ih =>
    intro p hp
    rw [List.foldl_cons]
    cases h : p.findIdx? (fun x => x == m) with
    | some i =>
      rw [insert_name_found p m i h]
      exact ih p hp
    | none =>
      rw [insert_name_not_found p m h]
      refine ih _ ?_
      have hm : m ∉ p := by
        intro hmem
        rw [List.findIdx?_eq_none_iff] at h
        have := h m hmem
        simp at this
      simp [List.nodup_append, hp, hm]

/-- Helper: the parameter list produced by the match loop is the
first-appearance fold of the processed names onto the incoming list. -/
theorem process_matches_params (s : List Char) :
    ∀ (ms : List (Nat × List Char)) (head : Nat) (p : List (List Char)) (out : List Char),
      (process_matches s ms head p out).2 = (seg_names s ms).foldl insert_name p := by
  intro ms
  induction ms with
  | nil => intro head p out; simp [process_matches, seg_names]
  | cons m ms ih =>
    obtain ⟨start, name⟩ := m
    intro head p out
    by_cases hg : cast_guard (s.take start) = true
    · simp [process_matches, seg_names, hg, ih]
    · have hg' : cast_guard (s.take start) = false := by simpa using hg
      cases hidx : p.findIdx? (fun m => m == name) with
      | some i =>
        simp only [process_matches, seg_names, hg', Bool.false_eq_true, if_false, hidx,
          List.foldl_cons, insert_name_found p name i hidx]
        exact ih _ _ _
      | none =>
        simp only [process_matches, seg_names, hg', Bool.false_eq_true, if_false, hidx,
          List.foldl_cons, insert_name_not_found p name hidx]
        exact ih _ _ _

/-- Helper: `idx_of` reads off a successful `findIdx?`. -/
theorem idx_of_eq (P : List (List Char)) (n : List Char) (i : Nat)
    (h : P.findIdx? (fun m => m == n) = some i) : idx_of P n = i := by
  unfold idx_of
  rw [h]
  rfl

/-- Helper: the emitted text of the match loop equals the rendering against
any extension of its own final parameter list: every `$k` written at process
time keeps its meaning in the final list, because the list only grows by
appending. -/
theorem process_matches_gold (s : List Char) :
    ∀ (ms : List (Nat × List Char)) (head : Nat) (p : List (List Char))
      (out : List Char) (t : List (List Char)),
      (process_matches s ms head p out).1
        = gold_process ((process_matches s ms head p out).2 ++ t) s ms head out := by
  intro ms
  induction ms with
  | nil => intro head p out t; simp [process_matches, gold_process]
  | cons m ms ih =>
    obtain ⟨start, name⟩ := m
    intro head p out t
    by_cases hg : cast_guard (s.take start) = true
    · simp only [process_matches, gold_process, hg, if_true]
      exact ih _ _ _ _
    · have hg' : cast_guard (s.take start) = false := by simpa using hg
      cases hidx : p.findIdx? (fun m => m == name) with
      | some i =>
        have hA : ∀ (head2 : Nat) (out2 : List Char),
            idx_of ((process_matches s ms head2 p out2).2 ++ t) name = i := by
          intro head2 out2
          rw [process_matches_params s ms head2 p out2]
          obtain ⟨ext, hext⟩ := foldl_insert_name_extends (seg_names s ms) p
          rw [hext, List.append_assoc]
          exact idx_of_eq _ name i (findIdx?_append_some _ _ p i hidx)
        simp only [process_matches, gold_process, hg', Bool.false_eq_true, if_false,
          hidx, hA]
        exact ih _ _ _ _
      | none =>
        have hnone : ∀ y ∈ p, (fun m => m == name) y = false := by
          rw [← List.findIdx?_eq_none_iff]
          exact hidx
        have hB : ∀ (head2 : Nat) (out2 : List Char),
            idx_of ((process_matches s ms head2 (p ++ [name]) out2).2 ++ t) name
              = p.length := by
          intro head2 out2
          rw [process_matches_params s ms head2 (p ++ [name]) out2]
          obtain ⟨ext, hext⟩ := foldl_insert_name_extends (seg_names s ms) (p ++ [name])
          rw [hext]
          have hre : p ++ [name] ++ ext ++ t = p ++ name :: (ext ++ t) := by simp
          rw [hre]
          exact idx_of_eq _ name p.length
            (findIdx?_append_none_cons _ name (ext ++ t) (by simp) p hnone)
        simp only [process_matches, gold_process, hg', Bool.false_eq_true, if_false,
          hidx, hB, Nat.add_comm 1 p.length]
        exact ih _ _ _ _

/-- Helper: the final parameter list of the segment loop is the
first-appearance fold of all processed occurrence names. -/
theorem rewrite_loop_params :
    ∀ (segs : List (List Char)) (id : Nat) (p : List (List Char)) (out : List Char),
      (rewrite_loop segs id p out).2 = (occ_names_loop segs id).foldl insert_name p := by
  intro segs
  induction segs with
  | nil => intro id p out; simp [rewrite_loop, occ_names_loop]
  | cons seg rest ih =>
    intro id p out
    by_cases hid : id % 2 = 1
    · simp only [rewrite_loop, occ_names_loop, hid, if_true]
      exact ih _ _ _
    · simp only [rewrite_loop, occ_names_loop, hid, if_false, List.foldl_append]
      rw [ih, process_matches_params]

/-- Helper: the segment loop's emitted text equals the gold rendering against
any extension of its own final parameter list. -/
theorem rewrite_loop_gold :
    ∀ (segs : List (List Char)) (id : Nat) (p : List (List Char)) (out : List Char)
      (t : List (List Char)),
      (rewrite_loop segs id p out).1
        = gold_loop ((rewrite_loop segs id p out).2 ++ t) segs id out := by
  intro segs
  induction segs with
  | nil => intro id p out t; simp [rewrite_loop, gold_loop]
  | cons seg rest ih =>
    intro id p out t
    by_cases hid : id % 2 = 1
    · simp only [rewrite_loop, gold_loop, hid, if_true]
      exact ih _ _ _ _
    · simp only [rewrite_loop, gold_loop, hid, if_false]
      have hfinal := rewrite_loop_params rest (id + 1)
        (process_matches seg (find_matches 0 seg) 0 p out).2
        (process_matches seg (find_matches 0 seg) 0 p out).1
      obtain ⟨ext, hext⟩ := foldl_insert_name_extends (occ_names_loop rest (id + 1))
        (process_matches seg (find_matches 0 seg) 0 p out).2
      have hgp : gold_process ((rewrite_loop rest (id + 1)
            (process_matches seg (find_matches 0 seg) 0 p out).2
            (process_matches seg (find_matches 0 seg) 0 p out).1).2 ++ t)
            seg (find_matches 0 seg) 0 out
          = (process_matches seg (find_matches 0 seg) 0 p out).1 := by
        rw [hfinal, hext, List.append_assoc]
        exact (process_matches_gold seg (find_matches 0 seg) 0 p out (ext ++ t)).symm
      rw [hgp]
      exact ih _ _ _ _

/-- C3: for every input, the returned parameter list is the first-appearance
deduplication of the processed placeholder occurrences (one entry per
distinct name, in order of first textual appearance), it has no duplicates,
it contains exactly the processed names, and the rewritten text is the gold
rendering in which every occurrence of a name is replaced by `$k` with
`k = 1 + (index of that name in the returned list)` — so later occurrences
reuse the `$k` assigned at the first one and `params[k-1]` is the name
assigned to `$k`. -/
theorem c3_dedup_order (q : List Char) :
    (parse_into_postgres q).2 = dedup_first (occ_names q)
    ∧ (parse_into_postgres q).1
      = gold_loop (dedup_first (occ_names q)) (split_query q) 0 []
    ∧ (dedup_first (occ_names q)).Nodup
    ∧ (∀ n, n ∈ dedup_first (occ_names q) ↔ n ∈ occ_names q) := by
  have hparams : (parse_into_postgres q).2 = dedup_first (occ_names q) := by
    unfold parse_into_postgres dedup_first occ_names
    exact rewrite_loop_params (split_query q) 0 [] []
  refine ⟨hparams, ?_, ?_, ?_⟩
  · have := rewrite_loop_gold (split_query q) 0 [] [] []
    rw [List.append_nil] at this
    unfold parse_into_postgres
    rw [this]
    have h2 : (rewrite_loop (split_query q) 0 [] []).2 = dedup_first (occ_names q) :=
      hparams
    rw [h2]
  · unfold dedup_first
    exact nodup_foldl_insert_name (occ_names q) [] List.nodup_nil
  · intro n
    unfold dedup_first
    rw [mem_foldl_insert_name]
    simp

/-- C5 amended, part 1 (helper): the code's skip condition
`query[..start].trim().ends_with(":")` holds exactly when the LAST
NON-WHITESPACE character before the match is a colon (not necessarily the
immediately preceding character). -/
theorem cast_guard_iff (pre : List Char) :
    cast_guard pre = true
      ↔ (pre.reverse.dropWhile Char.isWhitespace).head? = some ':' := by
  unfold cast_guard rust_trim
  rw [List.getLast?_eq_head?_reverse, List.reverse_reverse, beq_iff_eq]
  have hsplit : pre.takeWhile Char.isWhitespace ++ pre.dropWhile Char.isWhitespace = pre :=
    List.takeWhile_append_dropWhile Char.isWhitespace pre
  have htw : ∀ x ∈ pre.takeWhile Char.isWhitespace, Char.isWhitespace x :=
    fun x hx => List.mem_takeWhile_imp hx
  cases hdn : pre.dropWhile Char.isWhitespace with
  | nil =>
    have hpre : pre.reverse.dropWhile Char.isWhitespace = [] := by
      rw [List.dropWhile_eq_nil_iff]
      intro x hx
      rw [List.mem_reverse] at hx
      have hsp := hsplit
      rw [hdn, List.append_nil] at hsp
      rw [← hsp] at hx
      exact htw x hx
    rw [hpre]
    simp
  | cons c cs =>
    have hcw : Char.isWhitespace c = false := by
      have hc := List.head?_dropWhile_not Char.isWhitespace pre
      rw [hdn] at hc
      simpa using hc
    have hdne : (c :: cs).reverse.dropWhile Char.isWhitespace ≠ [] := by
      rw [Ne, List.dropWhile_eq_nil_iff]
      intro hall
      have hcc : Char.isWhitespace c = true := hall c (by simp)
      rw [hcw] at hcc
      cases hcc
    have hrev : pre.reverse.dropWhile Char.isWhitespace
        = (c :: cs).reverse.dropWhile Char.isWhitespace
          ++ (pre.takeWhile Char.isWhitespace).reverse := by
      conv_lhs => rw [← hsplit, hdn]
      rw [List.reverse_append, List.dropWhile_append]
      simp only [List.isEmpty_iff, hdne, if_false]
    rw [hrev, List.head?_append]
    cases hx : ((c :: cs).reverse.dropWhile Char.isWhitespace).head? with
    | none => exact absurd (List.head?_eq_none_iff.mp hx) hdne
    | some y => simp

/-- C5 amended: the rewriter skips a match exactly when the segment text
before it, after trimming whitespace, ends with a colon — equivalently, when
the nearest preceding non-whitespace character is `:`.  Consequently
`col::text` produces no parameter, `: :x` (colon, whitespace, placeholder)
also produces none, and a `:name` whose nearest preceding non-whitespace
character is not a colon (or which starts the text) is rewritten. -/
theorem c5_cast_guard_amended :
    (∀ pre : List Char,
      cast_guard pre = true
        ↔ (pre.reverse.dropWhile Char.isWhitespace).head? = some ':')
    ∧ parse_into_postgres ("select col::text from t").data
      = (("select col::text from t").data, [])
    ∧ parse_into_postgres ("select :name from t").data
      = (("select $1 from t").data, [("name").data])
    ∧ parse_into_postgres (':' :: 'x' :: []) = ('$' :: '1' :: [], [['x']]) := by
  refine ⟨cast_guard_iff, by decide, by decide, by decide⟩

/-! ### Literal safety of the rewriter on non-interleaved inputs -/

/-- Helper: scanning quote-free text only extends the pending slice. -/
theorem split_query_loop_append (o : List Char) (ho : quote_free o) :
    ∀ (r : List Char) (inq indq : Bool) (cur : List Char),
      split_query_loop (o ++ r) inq indq cur = split_query_loop r inq indq (cur ++ o) := by
  induction o with
  | nil => intro r inq indq cur; simp
  | cons c os ih =>
    intro r inq indq cur
    obtain ⟨hcs, hcd⟩ := ho c (List.mem_cons_self c os)
    have hos : quote_free os := fun x hx => ho x (List.mem_cons_of_mem c hx)
    simp only [List.cons_append, split_query_loop, hcs, hcd, if_false]
    simpa using ih hos r inq indq (cur ++ [c])

/-- Helper: on a well-formed decomposition the scanner produces exactly the
segment list of the boundary-state machine `segs_of_aux`, entered with any
single-quote state and pending slice (the double-quote state is closed at
every chunk boundary). -/
theorem split_query_loop_chunks :
    ∀ (cs : List Chunk) (fin : List Char) (inq : Bool) (cur : List Char),
      (∀ c ∈ cs, chunk_ok c) → quote_free fin →
      split_query_loop (render_chunks cs fin) inq false cur
        = segs_of_aux inq cur cs fin := by
  intro cs
  induction cs with
  | nil =>
    intro fin inq cur _ hfin
    have h := split_query_loop_append fin hfin [] inq false cur
    rw [List.append_nil] at h
    simpa [render_chunks, segs_of_aux, split_query_loop] using h
  | cons ch rest ih =>
    obtain ⟨o, qc, b⟩ := ch
    intro fin inq cur hok hfin
    obtain ⟨hqc, ho, hb⟩ := hok (o, qc, b) (List.mem_cons_self _ _)
    have hrest : ∀ c ∈ rest, chunk_ok c := fun c hc => hok c (List.mem_cons_of_mem _ hc)
    have hih : ∀ (inq2 : Bool) (cur2 : List Char),
        split_query_loop (render_chunks rest fin) inq2 false cur2
          = segs_of_aux inq2 cur2 rest fin :=
      fun inq2 cur2 => ih fin inq2 cur2 hrest hfin
    have hds : ¬(dquote = squote) := by decide
    simp only [render_chunks]
    rw [split_query_loop_append o ho]
    rcases hqc with hq | hq
    · subst hq
      cases inq with
      | true =>
        simp [split_query_loop, segs_of_aux, split_query_loop_append b hb, hih]
      | false =>
        simp [split_query_loop, segs_of_aux, split_query_loop_append b hb, hih]
    · subst hq
      simp [split_query_loop, segs_of_aux, split_query_loop_append b hb, hih, hds]

/-- Helper: `split_query` on a well-formed decomposition, including the
leading-single-quote special case. -/
theorem split_query_chunks (cs : List Chunk) (fin : List Char)
    (hok : ∀ c ∈ cs, chunk_ok c) (hfin : quote_free fin) :
    split_query (render_chunks cs fin) = segs_of cs fin := by
  cases cs with
  | nil =>
    have hhead : ¬(render_chunks [] fin).head? = some squote := by
      simp only [render_chunks]
      cases hf : fin with
      | nil => simp
      | cons c cf =>
        have hc : c ≠ squote := (hfin c (by rw [hf]; simp)).1
        simp [hc]
    unfold split_query
    simp only [hhead, if_false, segs_of]
    exact split_query_loop_chunks [] fin false [] hok hfin
  | cons ch rest =>
    obtain ⟨o, qc, b⟩ := ch
    obtain ⟨hqc, ho, hb⟩ := hok (o, qc, b) (List.mem_cons_self _ _)
    have hrest : ∀ c ∈ rest, chunk_ok c := fun c hc => hok c (List.mem_cons_of_mem _ hc)
    by_cases hh : o = [] ∧ qc = squote
    · obtain ⟨ho0, hq0⟩ := hh
      subst ho0; subst hq0
      unfold split_query
      have hhead : (render_chunks ((([], squote, b) : Chunk) :: rest) fin).head?
          = some squote := by
        simp [render_chunks]
      simp only [segs_of, render_chunks, List.nil_append, List.head?_cons,
        if_pos rfl, List.drop_succ_cons, List.drop_zero, and_self, if_true]
      rw [split_query_loop_append b hb]
      simp only [split_query_loop, if_pos rfl, List.nil_append]
      rw [split_query_loop_chunks rest fin true [squote] hrest hfin]
      simp
    · have hne : ¬(render_chunks ((o, qc, b) :: rest) fin).head? = some squote := by
        simp only [render_chunks]
        cases hoc : o with
        | nil =>
          have hqd : qc = dquote := by
            rcases hqc with h | h
            · exact absurd ⟨hoc, h⟩ hh
            · exact h
          subst hqd
          simp [show ¬(dquote = squote) from by decide]
        | cons c oc =>
          have hc : c ≠ squote := (ho c (by rw [hoc]; simp)).1
          simp [hc]
      unfold split_query
      simp only [hne, if_false, segs_of, hh]
      exact split_query_loop_chunks ((o, qc, b) :: rest) fin false [] hok hfin

/-- Helper: running the segment loop over the state-machine segment list at
any even position processes each boundary segment and copies each literal
body (or delimited literal) verbatim — i.e. it computes `chunks_rewrite_aux`. -/
theorem rewrite_loop_segs_aux :
    ∀ (cs : List Chunk) (fin : List Char) (inq : Bool) (cur : List Char)
      (k : Nat) (params : List (List Char)) (out : List Char),
      rewrite_loop (segs_of_aux inq cur cs fin) (2 * k) params out
        = chunks_rewrite_aux inq cur cs fin params out := by
  intro cs
  induction cs with
  | nil =>
    intro fin inq cur k params out
    have hk : ¬((2 * k) % 2 = 1) := by omega
    simp [segs_of_aux, chunks_rewrite_aux, rewrite_loop, hk, process_seg]
  | cons ch rest ih =>
    obtain ⟨o, qc, b⟩ := ch
    intro fin inq cur k params out
    have hk : ¬((2 * k) % 2 = 1) := by omega
    have hk1 : (2 * k + 1) % 2 = 1 := by omega
    have hk2 : 2 * k + 1 + 1 = 2 * (k + 1) := by omega
    by_cases hq : qc = squote
    · subst hq
      cases inq with
      | true =>
        simp only [segs_of_aux, chunks_rewrite_aux, if_pos rfl, if_true,
          rewrite_loop, hk, if_false, hk1, hk2, process_seg]
        exact ih fin true [squote] (k + 1) _ _
      | false =>
        simp only [segs_of_aux, chunks_rewrite_aux, if_pos rfl,
          Bool.false_eq_true, if_false, rewrite_loop, hk, hk1, hk2, process_seg]
        exact ih fin false [] (k + 1) _ _
    · simp only [segs_of_aux, chunks_rewrite_aux, hq, if_false,
        rewrite_loop, hk, hk1, hk2, process_seg]
      exact ih fin inq [] (k + 1) _ _

/-- Helper: the whole rewriter on the state-machine segment list computes the
spec-side chunk rewriting. -/
theorem rewrite_loop_segs (cs : List Chunk) (fin : List Char) :
    rewrite_loop (segs_of cs fin) 0 [] [] = chunks_rewrite cs fin := by
  cases cs with
  | nil =>
    simpa [segs_of, chunks_rewrite] using rewrite_loop_segs_aux [] fin false [] 0 [] []
  | cons ch rest =>
    obtain ⟨o, qc, b⟩ := ch
    by_cases hh : o = [] ∧ qc = squote
    · obtain ⟨ho0, hq0⟩ := hh
      subst ho0; subst hq0
      simp only [segs_of, chunks_rewrite, and_self, if_true, if_pos rfl]
      simp only [rewrite_loop, show ¬((0 : Nat) % 2 = 1) from by omega,
        show (1 : Nat) % 2 = 1 from by omega, if_false, if_true, process_seg]
      have h2 := rewrite_loop_segs_aux rest fin true [squote] 1
      simpa using h2 _ _
    · simp only [segs_of, chunks_rewrite, hh, if_false]
      simpa using rewrite_loop_segs_aux ((o, qc, b) :: rest) fin false [] 0 [] []

/-- C2 amended: the interleaving counterexample forces the restriction that
no quoted literal contains a quote character of the other kind.  Under that
restriction — the input decomposes into quote-free outside text and quoted
literals with quote-free bodies — the rewriter equals `chunks_rewrite`, which
appends every literal body to the output VERBATIM and only processes the
outside segments, so no placeholder occurrence inside a `'…'` or `"…"`
literal is ever rewritten. -/
theorem c2_literal_safety_amended (cs : List Chunk) (fin : List Char)
    (h : chunks_ok cs fin) :
    parse_into_postgres (render_chunks cs fin) = chunks_rewrite cs fin := by
  unfold parse_into_postgres
  rw [split_query_chunks cs fin h.1 h.2]
  exact rewrite_loop_segs cs fin

/-- Witness for C2 amended: the decomposition `a ':x' :y` (outside text
`a `, single-quoted literal with body `:x`, tail ` :y`) satisfies the
hypotheses; the rewriter leaves `:x` alone and rewrites `:y` to `$1`. -/
theorem c2_literal_safety_amended_witness :
    chunks_ok [(['a', ' '], squote, [':', 'x'])] [' ', ':', 'y']
    ∧ parse_into_postgres
        (render_chunks [(['a', ' '], squote, [':', 'x'])] [' ', ':', 'y'])
      = chunks_rewrite [(['a', ' '], squote, [':', 'x'])] [' ', ':', 'y']
    ∧ (parse_into_postgres
        (render_chunks [(['a', ' '], squote, [':', 'x'])] [' ', ':', 'y'])).1
      = ['a', ' ', squote, ':', 'x', squote, ' ', '$', '1'] :=
  ⟨by decide,
   c2_literal_safety_amended [(['a', ' '], squote, [':', 'x'])] [' ', ':', 'y']
     (by decide),
   by decide⟩
